import Mathlib

/-!
# Verification of the bckt-mcp formatting and path-computation engine

A shallow embedding of the pure core of the bckt-mcp server (`main.go`):
the slug generator, text wrapper, path template resolver, front-matter
validator and the document formatter, together with proofs of the spec's
claims about them.

Go strings are modelled as `List Char` (the sources under study only ever
interact with ASCII text in the claims, where byte length and character
count coincide).  Go `int` values are modelled as `Int`.
-/

namespace Bckt

/-- A Go string, modelled as its sequence of characters. -/
abbrev Str := List Char

/-- Whitespace test used by `strings.Fields` (Go `unicode.IsSpace`),
restricted to the whitespace characters relevant here: ASCII whitespace
plus NEL and NBSP. -/
def goIsSpace (c : Char) : Bool :=
  c = ' ' || c = '\t' || c = '\n' || c = '\x0b' || c = '\x0c' || c = '\r' ||
  c = '\u0085' || c = '\u00A0'

/-- `strings.Split(s, sep)` for a one-character separator: splits `s` at
every occurrence of `sep`, dropping the separators; `n` separators yield
`n+1` (possibly empty) pieces. -/
def splitOnChar (sep : Char) : Str → List Str
  | [] => [[]]
  | c :: rest =>
    if c = sep then [] :: splitOnChar sep rest
    else
      match splitOnChar sep rest with
      | [] => [[c]]
      | l :: ls => (c :: l) :: ls

/-- `strings.Join(pieces, "\n")`: interleave a newline between pieces. -/
def joinNl : List Str → Str
  | [] => []
  | [l] => l
  | l :: l' :: ls => l ++ '\n' :: joinNl (l' :: ls)

/-- Accumulator-passing worker for `goFields`: `acc` holds the current
word reversed. -/
def fieldsAux (acc : Str) : Str → List Str
  | [] => if acc = [] then [] else [acc.reverse]
  | c :: rest =>
    if goIsSpace c then
      if acc = [] then fieldsAux [] rest
      else acc.reverse :: fieldsAux [] rest
    else fieldsAux (c :: acc) rest

/-- `strings.Fields(s)`: the maximal whitespace-free words of `s`, in
order; whitespace-only input yields the empty list. -/
def goFields (s : Str) : List Str := fieldsAux [] s

/-- The greedy word-packing loop of `wrapText` (`main.go` lines 835-850):
`current` is the output line under construction; a word is appended with a
single separating space when the line stays within `width`, otherwise the
line is closed and the word starts a new one. -/
def packWords (width : Int) (current : Str) : List Str → List Str
  | [] => if current.length > 0 then [current] else []
  | w :: ws =>
    if current.length = 0 then packWords width w ws
    else if (current.length : Int) + 1 + (w.length : Int) ≤ width then
      packWords width (current ++ ' ' :: w) ws
    else
      current :: packWords width w ws

/-- Per-source-line transform of `wrapText`: a line within the width
passes through unchanged; a longer line is reflowed greedily from its
whitespace-delimited words. -/
def wrapLine (width : Int) (line : Str) : List Str :=
  if (line.length : Int) ≤ width then [line]
  else packWords width [] (goFields line)

/-- `wrapText` from `main.go` lines 818-854: widths below 20 disable
wrapping; otherwise each newline-separated source line is wrapped and the
resulting lines are rejoined with newlines. -/
def wrapText (text : Str) (width : Int) : Str :=
  if width < 20 then text
  else joinNl ((splitOnChar '\n' text).flatMap (wrapLine width))

/-- Lowercase-alphanumeric test: the character class `[a-z0-9]` of the
slugify regular expression. -/
def isLowerAlnum (c : Char) : Bool :=
  ('a' ≤ c && c ≤ 'z') || ('0' ≤ c && c ≤ '9')

/-- ASCII case folding, modelling `strings.ToLower` on the inputs of
interest. -/
def goToLower (c : Char) : Char :=
  if 'A' ≤ c && c ≤ 'Z' then Char.ofNat (c.toNat + 32) else c

/-- Replace every maximal run of characters outside `[a-z0-9]` by a single
hyphen (the `ReplaceAllString` step of `slugify`); `inRun` records whether
the previous character was part of such a run. -/
def collapseRuns (inRun : Bool) : Str → Str
  | [] => []
  | c :: rest =>
    if isLowerAlnum c then c :: collapseRuns false rest
    else if inRun then collapseRuns true rest
    else '-' :: collapseRuns true rest

/-- `strings.Trim(s, "-")`: drop leading and trailing hyphens. -/
def trimHyphens (l : Str) : Str :=
  ((l.dropWhile (· = '-')).reverse.dropWhile (· = '-')).reverse

/-- `slugify` from `main.go` lines 811-816: lowercase, collapse non
`[a-z0-9]` runs to single hyphens, trim hyphens from both ends. -/
def slugify (s : Str) : Str :=
  trimHyphens (collapseRuns false (s.map goToLower))

/-- Does `s` start with `pat`? (`strings.HasPrefix`). -/
def startsWith : Str → Str → Bool
  | _, [] => true
  | [], _ :: _ => false
  | c :: cs, p :: ps => c = p && startsWith cs ps

/-- Scanning worker for `replaceAll`; the fuel argument only bounds the
recursion (each step consumes at least one character, so fuel equal to the
length of the scanned string never runs out). -/
def replaceAllAux (pat rep : Str) : Nat → Str → Str
  | _, [] => []
  | 0, s => s
  | fuel + 1, c :: rest =>
    if startsWith (c :: rest) pat then
      rep ++ replaceAllAux pat rep fuel (rest.drop (pat.length - 1))
    else c :: replaceAllAux pat rep fuel rest

/-- `strings.ReplaceAll(s, pat, rep)` for a non-empty `pat`: replace every
non-overlapping occurrence of `pat` in `s`, scanning left to right. -/
def replaceAll (pat rep s : Str) : Str := replaceAllAux pat rep s.length s

/-- `computePath` from `main.go` lines 856-880, over character lists: take
the first ten characters of the date, split them on `-`; with fewer than
three components return the pattern unchanged, otherwise substitute the
`{yyyy}`, `{MM}`, `{DD}` and `{slug}` placeholders. -/
def computePathL (pattern date slug : Str) : Str :=
  match splitOnChar '-' (if 10 ≤ date.length then date.take 10 else date) with
  | yyyy :: mm :: dd :: _ =>
    replaceAll "{slug}".toList slug
      (replaceAll "{DD}".toList dd
        (replaceAll "{MM}".toList mm
          (replaceAll "{yyyy}".toList yyyy pattern)))
  | _ => pattern

/-- `computePath` at the `String` level. -/
def computePath (pattern date slug : String) : String :=
  ⟨computePathL pattern.toList date.toList slug.toList⟩

/-! ## Data model -/

/-- A loosely-typed front-matter value (`interface{}` in the source): a
string, a string array, or a boolean. -/
inductive Value where
  | str (s : String)
  | strList (l : List String)
  | bool (b : Bool)
  deriving DecidableEq

/-- The `Config` structure of `main.go` (TOML-backed configuration). -/
structure Config where
  rootPath : String
  timezone : String
  pathPattern : String
  required : List String
  defaults : List (String × Value)
  wrapAt : Int
  deriving DecidableEq

/-- `FormatInput`: one formatting request.  `meta` is the content of the
request's metadata map, as key/value entries. -/
structure FormatInput where
  raw : String
  meta : List (String × Value)
  config : String
  strategy : String
  deriving DecidableEq

/-- `FormatOutput`: computed path, assembled document, warnings. -/
structure FormatOutput where
  path : String
  markdown : String
  warnings : List String
  deriving DecidableEq

/-- The formatter's external collaborators (spec section 6), passed in as
function values: `tomlMerge` is the inline-TOML decode-into-config call
(`none` on parse failure), `yamlMarshal` the YAML serializer (applied to
the entries sorted by key, as `yaml.Marshal` sorts map keys), and `now`
maps the configured timezone name to the formatted current instant
(`time.Now().In(loc).Format(...)`, with the UTC fallback for unresolvable
zones folded in). -/
structure Collab where
  tomlMerge : String → Config → Option Config
  yamlMarshal : List (String × Value) → String
  now : String → String

/-- Go map read `fm[k]`: look a key up among the entries. -/
def lookupFM (fm : List (String × Value)) (k : String) : Option Value :=
  match fm with
  | [] => none
  | (k', v) :: rest => if k' = k then some v else lookupFM rest k

/-- Go map write `fm[k] = v`: overwrite the entry for `k`, or append a new
one. -/
def insertFM (fm : List (String × Value)) (k : String) (v : Value) :
    List (String × Value) :=
  match fm with
  | [] => [(k, v)]
  | (k', v') :: rest =>
    if k' = k then (k, v) :: rest else (k', v') :: insertFM rest k v

/-- Building the front-matter map (`main.go` lines 689-699): configuration
defaults first, then user metadata, user values winning. -/
def mergeFM (defaults meta : List (String × Value)) : List (String × Value) :=
  meta.foldl (fun acc kv => insertFM acc kv.1 kv.2)
    (defaults.foldl (fun acc kv => insertFM acc kv.1 kv.2) [])

/-- `strings.TrimSpace`. -/
def goTrimSpace (s : String) : String :=
  ⟨((s.toList.dropWhile goIsSpace).reverse.dropWhile goIsSpace).reverse⟩

/-- `slugify` at the `String` level. -/
def slugifyS (s : String) : String := ⟨slugify s.toList⟩

/-- `wrapText` at the `String` level. -/
def wrapTextS (s : String) (width : Int) : String := ⟨wrapText s.toList width⟩

/-- `strings.TrimRight(s, "\n")` over character lists. -/
def trimRightNl (l : Str) : Str := (l.reverse.dropWhile (· = '\n')).reverse

/-- `strings.TrimRight(s, "\n")` at the `String` level. -/
def trimRightNlS (s : String) : String := ⟨trimRightNl s.toList⟩

/-- Modelled: `filepath.Join(root, rel)` for arguments free of redundant
separators (the library's path cleaning is not modelled; no claim depends
on it). -/
def joinPath (root rel : String) : String := root ++ "/" ++ rel

/-- Lexicographic comparison of keys by character code (the order in
which `yaml.Marshal` emits plain string map keys). -/
def strLt : Str → Str → Bool
  | [], [] => false
  | [], _ :: _ => true
  | _ :: _, [] => false
  | c :: cs, d :: ds =>
    if c.toNat < d.toNat then true
    else if d.toNat < c.toNat then false
    else strLt cs ds

/-- Sort front-matter entries by key (insertion step).  `yaml.Marshal`
sorts map keys before serializing, so the serializer is applied to the
key-sorted entries. -/
def insertSorted (e : String × Value) : List (String × Value) →
    List (String × Value)
  | [] => [e]
  | f :: rest =>
    if strLt e.1.toList f.1.toList then e :: f :: rest
    else f :: insertSorted e rest

/-- Sort front-matter entries by key. -/
def sortEntries (l : List (String × Value)) : List (String × Value) :=
  l.foldr insertSorted []

/-- Step 1 of `formatContent` (`main.go` lines 672-686): the effective
configuration; a non-empty inline override is decoded on top of the
current configuration, with a decode failure silently ignored. -/
def effConfig (ext : Collab) (input : FormatInput) (cfg0 : Config) : Config :=
  if input.config = "" then cfg0
  else
    match ext.tomlMerge input.config cfg0 with
    | some c => c
    | none => cfg0

/-- The derivation steps of `formatContent` (`main.go` lines 707-732):
fill in `slug` (from the title), `date` (from the current instant in the
configured timezone), `tags`, `abstract` and `excerpt` when absent. -/
def deriveFM (ext : Collab) (cfg : Config) (fm0 : List (String × Value)) :
    List (String × Value) :=
  let title := match lookupFM fm0 "title" with
    | some (.str t) => t
    | _ => ""
  let fm1 := if (lookupFM fm0 "slug").isSome then fm0
             else insertFM fm0 "slug" (.str (slugifyS title))
  let fm2 := if (lookupFM fm1 "date").isSome then fm1
             else insertFM fm1 "date" (.str (ext.now cfg.timezone))
  let fm3 := if (lookupFM fm2 "tags").isSome then fm2
             else insertFM fm2 "tags" (.strList [])
  let fm4 := if (lookupFM fm3 "abstract").isSome then fm3
             else insertFM fm3 "abstract" (.str "")
  if (lookupFM fm4 "excerpt").isSome then fm4
  else insertFM fm4 "excerpt" (.str "")

/-- The fully built front matter of a request: defaults overlaid by user
metadata, then the derivations. -/
def builtFM (ext : Collab) (input : FormatInput) (cfg0 : Config) :
    List (String × Value) :=
  deriveFM ext (effConfig ext input cfg0)
    (mergeFM (effConfig ext input cfg0).defaults input.meta)

/-- The first loop of `validateFrontMatter` (`main.go` lines 785-791):
the first field of the required list, in list order, that is absent from
the mapping. -/
def checkRequired (fm : List (String × Value)) : List String → Option String
  | [] => none
  | f :: rest => if (lookupFM fm f).isSome then checkRequired fm rest else some f

/-- `validateFrontMatter` from `main.go` lines 784-809.  Go iterates the
mapping's keys in an unspecified, run-dependent order; that order is made
explicit as the argument `iter` (a permutation of the mapping's keys). -/
def validateFrontMatter (fm : List (String × Value)) (iter : List String)
    (req : List String) (strict : Bool) : Except String (List String) :=
  match checkRequired fm req with
  | some f => .error ("missing required field: " ++ f)
  | none =>
    if strict then
      match iter.find? (fun k => !(req.contains k)) with
      | some k => .error ("unknown field in strict mode: " ++ k)
      | none => .ok []
    else
      .ok ((iter.filter (fun k => !(req.contains k))).map
        (fun k => "unknown field: " ++ k))

/-- `formatContent` from `main.go` lines 672-768, the document formatter.
`iter` is the iteration order of the built front-matter map inside the
validator; the `interface{}`-to-string assertions of the source (title,
date, slug reads) surface as the corresponding match arms. -/
def formatContent (ext : Collab) (iter : List String) (input : FormatInput)
    (cfg0 : Config) : Except String FormatOutput :=
  let cfg := effConfig ext input cfg0
  let fm0 := mergeFM cfg.defaults input.meta
  match lookupFM fm0 "title" with
  | some (.str title) =>
    if goTrimSpace title = "" then .error "title is required"
    else
      let fm := deriveFM ext cfg fm0
      match validateFrontMatter fm iter cfg.required (input.strategy != "lenient") with
      | .error e => .error e
      | .ok warnings =>
        let body := wrapTextS input.raw cfg.wrapAt
        let yamlData := ext.yamlMarshal (sortEntries fm)
        let markdown := "---\n" ++ yamlData ++ "---\n\n" ++ trimRightNlS body ++ "\n"
        match lookupFM fm "date", lookupFM fm "slug" with
        | some (.str dateStr), some (.str slug) =>
          let rel := computePath cfg.pathPattern dateStr slug
          .ok { path := if cfg.rootPath = "" then rel else joinPath cfg.rootPath rel
                markdown := markdown
                warnings := warnings }
        | _, _ => .error "panic: interface conversion"
  | _ => .error "title is required"

deriving instance DecidableEq for Except

/-! ## Concrete fixtures used by witnesses and counterexamples -/

/-- A concrete collaborator bundle: the inline TOML override always fails
to parse, the YAML serializer prints one line per key, the clock is
fixed. -/
def collabFix : Collab :=
  { tomlMerge := fun _ _ => none
    yamlMarshal := fun l => String.join (l.map (fun kv => kv.1 ++ ": x\n"))
    now := fun _ => "2025-10-07 12:00:00 +0000" }

/-- A concrete configuration (the default path pattern and wrap width). -/
def cfgFix : Config :=
  { rootPath := ""
    timezone := "UTC"
    pathPattern := "posts/{yyyy}/{yyyy}-{MM}-{DD}-{slug}/{slug}.md"
    required := ["title", "slug", "date", "tags", "abstract", "excerpt"]
    defaults := []
    wrapAt := 100 }

/-- A request with an explicit date and two unknown metadata keys, under
the lenient strategy. -/
def inputFix : FormatInput :=
  { raw := "hello world"
    meta := [("title", Value.str "My Post"),
             ("date", Value.str "2025-01-02 10:00:00 +0000"),
             ("aaa", Value.str "1"), ("bbb", Value.str "2")]
    config := ""
    strategy := "lenient" }

/-- One iteration order of the keys of `builtFM collabFix inputFix cfgFix`. -/
def iterA : List String :=
  ["title", "date", "aaa", "bbb", "slug", "tags", "abstract", "excerpt"]

/-- Another iteration order of the same key set (aaa and bbb swapped). -/
def iterB : List String :=
  ["title", "date", "bbb", "aaa", "slug", "tags", "abstract", "excerpt"]

/-- A request with an explicit date and no unknown keys, strict. -/
def inputFix2 : FormatInput :=
  { raw := "hello world"
    meta := [("title", Value.str "My Post"),
             ("date", Value.str "2025-01-02 10:00:00 +0000")]
    config := ""
    strategy := "strict" }

/-- The key iteration order of `builtFM collabFix inputFix2 cfgFix`. -/
def iterFix2 : List String :=
  ["title", "date", "slug", "tags", "abstract", "excerpt"]

/-- The output of formatting `inputFix2` under `cfgFix`. -/
def outFix2 : FormatOutput :=
  { path := "posts/2025/2025-01-02-my-post/my-post.md"
    markdown := "---\nabstract: x\ndate: x\nexcerpt: x\nslug: x\ntags: x\ntitle: x\n---\n\nhello world\n"
    warnings := [] }

/-- The output of formatting `inputFix` under iteration order `iterA`. -/
def outFixA : FormatOutput :=
  { path := "posts/2025/2025-01-02-my-post/my-post.md"
    markdown := "---\naaa: x\nabstract: x\nbbb: x\ndate: x\nexcerpt: x\nslug: x\ntags: x\ntitle: x\n---\n\nhello world\n"
    warnings := ["unknown field: aaa", "unknown field: bbb"] }

/-- The output of formatting `inputFix` under iteration order `iterB`. -/
def outFixB : FormatOutput :=
  { path := "posts/2025/2025-01-02-my-post/my-post.md"
    markdown := "---\naaa: x\nabstract: x\nbbb: x\ndate: x\nexcerpt: x\nslug: x\ntags: x\ntitle: x\n---\n\nhello world\n"
    warnings := ["unknown field: bbb", "unknown field: aaa"] }

/-- A request carrying an inline configuration override that fails to
parse. -/
def inputFix3 : FormatInput :=
  { raw := "hi"
    meta := [("title", Value.str "T"),
             ("date", Value.str "2025-01-02 10:00:00 +0000")]
    config := "root_path = ["
    strategy := "strict" }

/-! ## Splitting and joining -/

theorem splitOnChar_ne_nil (sep : Char) (s : Str) : splitOnChar sep s ≠ [] := by
  cases s with
  | nil => simp [splitOnChar]
  | cons c rest =>
    simp only [splitOnChar]
    split
    · simp
    · split <;> simp

theorem not_mem_of_mem_splitOnChar (sep : Char) (s : Str) :
    ∀ l ∈ splitOnChar sep s, sep ∉ l := by
  induction s with
  | nil =>
    intro l hl
    simp only [splitOnChar, List.mem_singleton] at hl
    simp [hl]
  | cons c rest ih =>
    intro l hl
    simp only [splitOnChar] at hl
    by_cases hc : c = sep
    · rw [if_pos hc] at hl
      rcases List.mem_cons.mp hl with rfl | hl
      · simp
      · exact ih l hl
    · rw [if_neg hc] at hl
      obtain ⟨l₀, ls₀, e⟩ := List.exists_cons_of_ne_nil (splitOnChar_ne_nil sep rest)
      rw [e] at hl
      rcases List.mem_cons.mp hl with rfl | hl
      · intro hmem
        rcases List.mem_cons.mp hmem with rfl | hmem
        · exact hc rfl
        · exact ih l₀ (e ▸ List.mem_cons_self _ _) hmem
      · exact ih l (e ▸ List.mem_cons_of_mem _ hl)

theorem splitOnChar_append (sep : Char) (a b : Str) :
    splitOnChar sep (a ++ sep :: b) = splitOnChar sep a ++ splitOnChar sep b := by
  induction a with
  | nil => simp [splitOnChar]
  | cons c a' ih =>
    simp only [List.cons_append, splitOnChar, List.append_eq]
    by_cases hc : c = sep
    · rw [if_pos hc, if_pos hc, ih]
      simp
    · rw [if_neg hc, if_neg hc, ih]
      obtain ⟨l₀, ls₀, e⟩ := List.exists_cons_of_ne_nil (splitOnChar_ne_nil sep a')
      rw [e]
      simp

theorem splitOnChar_of_not_mem (sep : Char) (s : Str) (h : sep ∉ s) :
    splitOnChar sep s = [s] := by
  induction s with
  | nil => rfl
  | cons c rest ih =>
    simp only [splitOnChar]
    rw [if_neg (by intro hc; exact h (hc ▸ List.mem_cons_self _ _)),
      ih (fun hm => h (List.mem_cons_of_mem _ hm))]

theorem joinNl_splitOnChar (s : Str) : joinNl (splitOnChar '\n' s) = s := by
  induction s with
  | nil => rfl
  | cons c rest ih =>
    simp only [splitOnChar]
    obtain ⟨l₀, ls₀, e⟩ := List.exists_cons_of_ne_nil (splitOnChar_ne_nil '\n' rest)
    rw [e] at ih
    by_cases hc : c = '\n'
    · rw [if_pos hc, e]
      simp only [joinNl, List.nil_append]
      rw [ih, hc]
    · rw [if_neg hc, e]
      cases ls₀ with
      | nil =>
        simp only [joinNl] at ih ⊢
        rw [ih]
      | cons l₁ ls₁ =>
        simp only [joinNl] at ih ⊢
        rw [List.cons_append, ih]

theorem splitOnChar_joinNl (pieces : List Str) (hp : pieces ≠ [])
    (h : ∀ p ∈ pieces, '\n' ∉ p) :
    splitOnChar '\n' (joinNl pieces) = pieces := by
  induction pieces with
  | nil => exact absurd rfl hp
  | cons l ls ih =>
    cases ls with
    | nil =>
      simp only [joinNl]
      exact splitOnChar_of_not_mem '\n' l (h l (List.mem_cons_self _ _))
    | cons l' ls' =>
      simp only [joinNl]
      rw [splitOnChar_append,
        splitOnChar_of_not_mem '\n' l (h l (List.mem_cons_self _ _)),
        ih (by simp) (fun p hp' => h p (List.mem_cons_of_mem _ hp'))]
      rfl

theorem mem_splitOnChar_joinNl (pieces : List Str)
    (h : ∀ p ∈ pieces, '\n' ∉ p) :
    ∀ l ∈ splitOnChar '\n' (joinNl pieces), l ∈ pieces ∨ l = [] := by
  intro l hl
  cases pieces with
  | nil =>
    right
    simpa [joinNl, splitOnChar] using hl
  | cons p ps =>
    left
    rwa [splitOnChar_joinNl (p :: ps) (by simp) h] at hl

/-! ## Words (`strings.Fields`) -/

theorem fieldsAux_nospace (s : Str) : ∀ acc, (∀ c ∈ acc, goIsSpace c = false) →
    ∀ w ∈ fieldsAux acc s, ∀ c ∈ w, goIsSpace c = false := by
  induction s with
  | nil =>
    intro acc hacc w hw c hc
    simp only [fieldsAux] at hw
    split at hw
    · simp at hw
    · simp only [List.mem_singleton] at hw
      subst hw
      exact hacc c (List.mem_reverse.mp hc)
  | cons c rest ih =>
    intro acc hacc w hw
    cases hsp : goIsSpace c with
    | true =>
      simp only [fieldsAux, hsp, if_true] at hw
      by_cases hacc' : acc = []
      · rw [if_pos hacc'] at hw
        exact ih [] (by simp) w hw
      · rw [if_neg hacc'] at hw
        rcases List.mem_cons.mp hw with rfl | hw
        · intro d hd
          exact hacc d (List.mem_reverse.mp hd)
        · exact ih [] (by simp) w hw
    | false =>
      simp only [fieldsAux, hsp] at hw
      refine ih (c :: acc) ?_ w hw
      intro d hd
      rcases List.mem_cons.mp hd with rfl | hd
      · exact hsp
      · exact hacc d hd

theorem fieldsAux_ne_nil (s : Str) : ∀ acc, ∀ w ∈ fieldsAux acc s, w ≠ [] := by
  induction s with
  | nil =>
    intro acc w hw
    simp only [fieldsAux] at hw
    split at hw
    · simp at hw
    · next hacc =>
      simp only [List.mem_singleton] at hw
      subst hw
      simpa using hacc
  | cons c rest ih =>
    intro acc w hw
    cases hsp : goIsSpace c with
    | true =>
      simp only [fieldsAux, hsp, if_true] at hw
      by_cases hacc' : acc = []
      · rw [if_pos hacc'] at hw
        exact ih [] w hw
      · rw [if_neg hacc'] at hw
        rcases List.mem_cons.mp hw with rfl | hw
        · simpa using hacc'
        · exact ih [] w hw
    | false =>
      simp only [fieldsAux, hsp] at hw
      exact ih (c :: acc) w hw

theorem goFields_nospace (s : Str) :
    ∀ w ∈ goFields s, ∀ c ∈ w, goIsSpace c = false :=
  fieldsAux_nospace s [] (by simp)

theorem goFields_ne_nil (s : Str) : ∀ w ∈ goFields s, w ≠ [] :=
  fieldsAux_ne_nil s []

theorem fieldsAux_all_space (s : Str) (h : ∀ c ∈ s, goIsSpace c = true) :
    fieldsAux [] s = [] := by
  induction s with
  | nil => rfl
  | cons c rest ih =>
    have hc : goIsSpace c = true := h c (List.mem_cons_self _ _)
    simp only [fieldsAux, hc, if_true, if_pos rfl]
    exact ih (fun d hd => h d (List.mem_cons_of_mem _ hd))

theorem fieldsAux_no_space (s : Str) (h : ∀ c ∈ s, goIsSpace c = false) :
    ∀ acc, fieldsAux acc s =
      if acc = [] ∧ s = [] then [] else [acc.reverse ++ s] := by
  induction s with
  | nil =>
    intro acc
    by_cases hacc : acc = []
    · simp [fieldsAux, hacc]
    · simp [fieldsAux, hacc]
  | cons c rest ih =>
    intro acc
    have hc : goIsSpace c = false := h c (List.mem_cons_self _ _)
    simp only [fieldsAux, hc]
    rw [ih (fun d hd => h d (List.mem_cons_of_mem _ hd)) (c :: acc)]
    simp

theorem goFields_all_space (s : Str) (h : ∀ c ∈ s, goIsSpace c = true) :
    goFields s = [] :=
  fieldsAux_all_space s h

theorem goFields_single_word (w : Str) (hne : w ≠ [])
    (h : ∀ c ∈ w, goIsSpace c = false) : goFields w = [w] := by
  unfold goFields
  rw [fieldsAux_no_space w h []]
  simp [hne]

/-! ## Greedy packing -/

theorem packWords_sat (width : Int) (S : Str → Prop) :
    ∀ (ws : List Str) (current : Str), (∀ w ∈ ws, S w) →
      (current = [] ∨ (current.length : Int) ≤ width ∨ S current) →
      ∀ l ∈ packWords width current ws, (l.length : Int) ≤ width ∨ S l := by
  intro ws
  induction ws with
  | nil =>
    intro current hws hcur l hl
    simp only [packWords] at hl
    split at hl
    · next hpos =>
      simp only [List.mem_singleton] at hl
      subst hl
      rcases hcur with rfl | h
      · simp at hpos
      · exact h
    · simp at hl
  | cons w ws' ih =>
    intro current hws hcur l hl
    simp only [packWords] at hl
    by_cases h0 : current.length = 0
    · rw [if_pos h0] at hl
      exact ih w (fun x hx => hws x (List.mem_cons_of_mem _ hx))
        (Or.inr (Or.inr (hws w (List.mem_cons_self _ _)))) l hl
    · rw [if_neg h0] at hl
      by_cases hfit : (current.length : Int) + 1 + (w.length : Int) ≤ width
      · rw [if_pos hfit] at hl
        refine ih (current ++ ' ' :: w)
          (fun x hx => hws x (List.mem_cons_of_mem _ hx)) ?_ l hl
        right; left
        simp only [List.length_append, List.length_cons]
        push_cast
        omega
      · rw [if_neg hfit] at hl
        rcases List.mem_cons.mp hl with rfl | hl
        · rcases hcur with rfl | h
          · simp at h0
          · exact h
        · exact ih w (fun x hx => hws x (List.mem_cons_of_mem _ hx))
            (Or.inr (Or.inr (hws w (List.mem_cons_self _ _)))) l hl

theorem packWords_chars (width : Int) (P : Char → Prop) (hspace : P ' ') :
    ∀ (ws : List Str) (current : Str), (∀ w ∈ ws, ∀ c ∈ w, P c) →
      (∀ c ∈ current, P c) →
      ∀ l ∈ packWords width current ws, ∀ c ∈ l, P c := by
  intro ws
  induction ws with
  | nil =>
    intro current hws hcur l hl
    simp only [packWords] at hl
    split at hl
    · simp only [List.mem_singleton] at hl
      subst hl
      exact hcur
    · simp at hl
  | cons w ws' ih =>
    intro current hws hcur l hl
    simp only [packWords] at hl
    by_cases h0 : current.length = 0
    · rw [if_pos h0] at hl
      exact ih w (fun x hx => hws x (List.mem_cons_of_mem _ hx))
        (hws w (List.mem_cons_self _ _)) l hl
    · rw [if_neg h0] at hl
      by_cases hfit : (current.length : Int) + 1 + (w.length : Int) ≤ width
      · rw [if_pos hfit] at hl
        refine ih (current ++ ' ' :: w)
          (fun x hx => hws x (List.mem_cons_of_mem _ hx)) ?_ l hl
        intro c hc
        rcases List.mem_append.mp hc with hc | hc
        · exact hcur c hc
        · rcases List.mem_cons.mp hc with rfl | hc
          · exact hspace
          · exact hws w (List.mem_cons_self _ _) c hc
      · rw [if_neg hfit] at hl
        rcases List.mem_cons.mp hl with rfl | hl
        · exact hcur
        · exact ih w (fun x hx => hws x (List.mem_cons_of_mem _ hx))
            (hws w (List.mem_cons_self _ _)) l hl

/-! ## Per-line wrapping -/

theorem wrapLine_sat (width : Int) (line : Str) :
    ∀ l ∈ wrapLine width line, (l.length : Int) ≤ width ∨
      (width < (line.length : Int) ∧ l ∈ goFields line) := by
  intro l hl
  unfold wrapLine at hl
  split at hl
  · next h =>
    simp only [List.mem_singleton] at hl
    subst hl
    exact Or.inl h
  · next h =>
    rcases packWords_sat width (· ∈ goFields line) (goFields line) []
      (fun w hw => hw) (Or.inl rfl) l hl with h' | h'
    · exact Or.inl h'
    · exact Or.inr ⟨by omega, h'⟩

theorem wrapLine_word_or_short (width : Int) (line : Str) :
    ∀ l ∈ wrapLine width line, (l.length : Int) ≤ width ∨
      (l ≠ [] ∧ ∀ c ∈ l, goIsSpace c = false) := by
  intro l hl
  unfold wrapLine at hl
  split at hl
  · next h =>
    simp only [List.mem_singleton] at hl
    subst hl
    exact Or.inl h
  · exact packWords_sat width (fun w => w ≠ [] ∧ ∀ c ∈ w, goIsSpace c = false)
      (goFields line) []
      (fun w hw => ⟨goFields_ne_nil line w hw, goFields_nospace line w hw⟩)
      (Or.inl rfl) l hl

theorem wrapLine_no_nl (width : Int) (line : Str) (hline : '\n' ∉ line) :
    ∀ l ∈ wrapLine width line, '\n' ∉ l := by
  intro l hl
  unfold wrapLine at hl
  split at hl
  · simp only [List.mem_singleton] at hl
    subst hl
    exact hline
  · intro hmem
    have hP := packWords_chars width (fun c => c ≠ '\n') (by decide)
      (goFields line) []
      (fun w hw c hc hceq => by
        have hns := goFields_nospace line w hw c hc
        rw [hceq] at hns
        simp [goIsSpace] at hns)
      (by simp) l hl
    exact hP '\n' hmem rfl

theorem wrapLine_of_word (width : Int) (l : Str) (hne : l ≠ [])
    (hns : ∀ c ∈ l, goIsSpace c = false) : wrapLine width l = [l] := by
  unfold wrapLine
  split
  · rfl
  · rw [goFields_single_word l hne hns]
    simp [packWords, hne]

theorem flatMap_id_of_mem {α : Type} (L : List (List α))
    (f : List α → List (List α)) (h : ∀ l ∈ L, f l = [l]) : L.flatMap f = L := by
  induction L with
  | nil => rfl
  | cons l ls ih =>
    rw [List.flatMap_cons, h l (List.mem_cons_self _ _),
      ih (fun x hx => h x (List.mem_cons_of_mem _ hx))]
    rfl

/-- C3: for every text and every width ≥ 20, every line of
`wrapText text width` has length ≤ width, except that a line consisting of
a single word longer than the width appears as that word alone on its own
output line, unsplit (the over-long line is literally one of the
whitespace-delimited words of an over-long source line). -/
theorem wrapText_line_length (text : Str) (width : Int) (h : 20 ≤ width) :
    ∀ l ∈ splitOnChar '\n' (wrapText text width),
      (l.length : Int) ≤ width ∨
      ∃ src, src ∈ splitOnChar '\n' text ∧ width < (src.length : Int) ∧
        l ∈ goFields src := by
  intro l hl
  rw [wrapText, if_neg (by omega)] at hl
  have hpieces : ∀ p ∈ (splitOnChar '\n' text).flatMap (wrapLine width),
      '\n' ∉ p := by
    intro p hp
    obtain ⟨src, hsrc, hpw⟩ := List.mem_flatMap.mp hp
    exact wrapLine_no_nl width src
      (not_mem_of_mem_splitOnChar '\n' text src hsrc) p hpw
  rcases mem_splitOnChar_joinNl _ hpieces l hl with hmem | rfl
  · obtain ⟨src, hsrc, hlw⟩ := List.mem_flatMap.mp hmem
    rcases wrapLine_sat width src l hlw with h' | ⟨hlen, hw⟩
    · exact Or.inl h'
    · exact Or.inr ⟨src, hsrc, hlen, hw⟩
  · left
    simp only [List.length_nil, Nat.cast_zero]
    omega

/-- Witness for C3 at a concrete input: wrapping
`"ok supercalifragilisticexpialidocious"` at width 20 emits the over-long
word as a line of its own, unsplit. -/
theorem wrapText_line_length_witness :
    (("supercalifragilisticexpialidocious".toList.length : Int) ≤ 20) ∨
    ∃ src, src ∈ splitOnChar '\n' "ok supercalifragilisticexpialidocious".toList ∧
      20 < (src.length : Int) ∧
      "supercalifragilisticexpialidocious".toList ∈ goFields src :=
  wrapText_line_length "ok supercalifragilisticexpialidocious".toList 20
    (by decide) "supercalifragilisticexpialidocious".toList (by decide)

/-- C9: `wrapText` is idempotent at every width, including widths below
20 (where it is the identity). -/
theorem wrapText_idempotent (text : Str) (width : Int) :
    wrapText (wrapText text width) width = wrapText text width := by
  by_cases hw : width < 20
  · rw [wrapText, if_pos hw]
  · have hout : wrapText text width =
        joinNl ((splitOnChar '\n' text).flatMap (wrapLine width)) := by
      rw [wrapText, if_neg hw]
    rw [hout, wrapText, if_neg hw]
    have hpieces : ∀ p ∈ (splitOnChar '\n' text).flatMap (wrapLine width),
        '\n' ∉ p := by
      intro p hp
      obtain ⟨src, hsrc, hpw⟩ := List.mem_flatMap.mp hp
      exact wrapLine_no_nl width src
        (not_mem_of_mem_splitOnChar '\n' text src hsrc) p hpw
    have hself : ∀ l ∈ splitOnChar '\n'
        (joinNl ((splitOnChar '\n' text).flatMap (wrapLine width))),
        wrapLine width l = [l] := by
      intro l hl
      rcases mem_splitOnChar_joinNl _ hpieces l hl with hmem | rfl
      · obtain ⟨src, hsrc, hlw⟩ := List.mem_flatMap.mp hmem
        rcases wrapLine_word_or_short width src l hlw with hle | ⟨hne, hns⟩
        · rw [wrapLine, if_pos hle]
        · exact wrapLine_of_word width l hne hns
      · rw [wrapLine, if_pos (by simp only [List.length_nil, Nat.cast_zero]; omega)]
    rw [flatMap_id_of_mem _ _ hself, joinNl_splitOnChar]

/-- Witness for C9 at a concrete input. -/
theorem wrapText_idempotent_witness :
    wrapText (wrapText "ab cd supercalifragilisticexpialidocious xy".toList 20) 20 =
      wrapText "ab cd supercalifragilisticexpialidocious xy".toList 20 :=
  wrapText_idempotent "ab cd supercalifragilisticexpialidocious xy".toList 20

/-- C10: for width ≥ 20, a source line that exceeds the width but contains
only whitespace contributes no output line at all: wrapping the text with
that line deleted gives the same output, its neighbours becoming adjacent. -/
theorem wrapText_drops_blank_line (width : Int) (a w b : Str) (h : 20 ≤ width)
    (hsp : ∀ c ∈ w, goIsSpace c = true) (hnl : '\n' ∉ w)
    (hlen : width < (w.length : Int)) :
    wrapText (a ++ '\n' :: (w ++ '\n' :: b)) width =
      wrapText (a ++ '\n' :: b) width := by
  rw [wrapText, if_neg (by omega), wrapText, if_neg (by omega)]
  rw [splitOnChar_append '\n' a (w ++ '\n' :: b), splitOnChar_append '\n' w b,
    splitOnChar_of_not_mem '\n' w hnl, splitOnChar_append '\n' a b]
  have hwl : wrapLine width w = [] := by
    rw [wrapLine, if_neg (by omega), goFields_all_space w hsp]
    rfl
  simp [hwl]

/-- Witness for C10 at a concrete input: a 25-space line between two short
lines disappears when wrapping at width 20. -/
theorem wrapText_drops_blank_line_witness :
    wrapText ("hi".toList ++ '\n' :: (List.replicate 25 ' ' ++ '\n' :: "yo".toList)) 20 =
      wrapText ("hi".toList ++ '\n' :: "yo".toList) 20 :=
  wrapText_drops_blank_line 20 "hi".toList (List.replicate 25 ' ') "yo".toList
    (by decide) (by decide) (by decide) (by decide)

/-! ## Slugify -/

theorem collapseRuns_cons_alnum (b : Bool) (x : Char) (rest : Str)
    (h : isLowerAlnum x = true) :
    collapseRuns b (x :: rest) = x :: collapseRuns false rest := by
  simp [collapseRuns, h]

theorem collapseRuns_cons_run (x : Char) (rest : Str)
    (h : isLowerAlnum x = false) :
    collapseRuns true (x :: rest) = collapseRuns true rest := by
  simp [collapseRuns, h]

theorem collapseRuns_cons_start (x : Char) (rest : Str)
    (h : isLowerAlnum x = false) :
    collapseRuns false (x :: rest) = '-' :: collapseRuns true rest := by
  simp [collapseRuns, h]

theorem collapseRuns_chars (l : Str) : ∀ b, ∀ c ∈ collapseRuns b l,
    isLowerAlnum c = true ∨ c = '-' := by
  induction l with
  | nil =>
    intro b c hc
    simp [collapseRuns] at hc
  | cons x rest ih =>
    intro b c hc
    cases hx : isLowerAlnum x with
    | true =>
      simp only [collapseRuns, hx, if_true] at hc
      rcases List.mem_cons.mp hc with rfl | hc
      · exact Or.inl hx
      · exact ih false c hc
    | false =>
      simp only [collapseRuns, hx, Bool.false_eq_true, if_false] at hc
      cases b with
      | true =>
        rw [if_pos rfl] at hc
        exact ih true c hc
      | false =>
        rw [if_neg (by simp)] at hc
        rcases List.mem_cons.mp hc with rfl | hc
        · exact Or.inr rfl
        · exact ih true c hc

theorem collapseRuns_true_head (l : Str) :
    ∀ c, (collapseRuns true l).head? = some c → isLowerAlnum c = true := by
  induction l with
  | nil =>
    intro c hc
    simp [collapseRuns] at hc
  | cons x rest ih =>
    intro c hc
    cases hx : isLowerAlnum x with
    | true =>
      simp only [collapseRuns, hx, if_true, List.head?_cons, Option.some.injEq] at hc
      subst hc
      exact hx
    | false =>
      simp only [collapseRuns, hx, Bool.false_eq_true, if_false, if_pos rfl] at hc
      exact ih c hc

theorem collapseRuns_chain (l : Str) : ∀ b,
    List.Chain' (fun x y => ¬(x = '-' ∧ y = '-')) (collapseRuns b l) := by
  induction l with
  | nil =>
    intro b
    simp [collapseRuns]
  | cons x rest ih =>
    intro b
    cases hx : isLowerAlnum x with
    | true =>
      simp only [collapseRuns, hx, if_true]
      rw [List.chain'_cons']
      refine ⟨?_, ih false⟩
      intro y _ hxy
      have hne : x ≠ '-' := by
        intro e
        rw [e] at hx
        simp [isLowerAlnum] at hx
      exact hne hxy.1
    | false =>
      simp only [collapseRuns, hx, Bool.false_eq_true, if_false]
      cases b with
      | true =>
        rw [if_pos rfl]
        exact ih true
      | false =>
        rw [if_neg (by simp)]
        rw [List.chain'_cons']
        refine ⟨?_, ih true⟩
        intro y hy hxy
        have hal := collapseRuns_true_head rest y (Option.mem_def.mp hy)
        have : y ≠ '-' := by
          intro e
          rw [e] at hal
          simp [isLowerAlnum] at hal
        exact this hxy.2

theorem chain_noadj_reverse (l : Str)
    (h : List.Chain' (fun x y => ¬(x = '-' ∧ y = '-')) l) :
    List.Chain' (fun x y => ¬(x = '-' ∧ y = '-')) l.reverse := by
  rw [List.chain'_reverse]
  exact h.imp (fun a b hab hba => hab ⟨hba.2, hba.1⟩)

theorem head?_dropWhile_hyphen (l : Str) :
    ∀ c, ((l.dropWhile (· = '-')).head? = some c) → c ≠ '-' := by
  induction l with
  | nil =>
    intro c hc
    simp at hc
  | cons x rest ih =>
    intro c hc
    by_cases hx : x = '-'
    · rw [List.dropWhile_cons, if_pos (by simp [hx])] at hc
      exact ih c hc
    · rw [List.dropWhile_cons, if_neg (by simp [hx])] at hc
      simp only [List.head?_cons, Option.some.injEq] at hc
      subst hc
      exact hx

theorem mem_trimHyphens (l : Str) : ∀ c ∈ trimHyphens l, c ∈ l := by
  intro c hc
  unfold trimHyphens at hc
  rw [List.mem_reverse] at hc
  obtain ⟨t, ht⟩ := List.dropWhile_suffix (l := (l.dropWhile (· = '-')).reverse)
    (· = '-')
  have hc2 : c ∈ (l.dropWhile (· = '-')).reverse := by
    rw [← ht]
    exact List.mem_append_right t hc
  rw [List.mem_reverse] at hc2
  obtain ⟨t', ht'⟩ := List.dropWhile_suffix (l := l) (· = '-')
  rw [← ht']
  exact List.mem_append_right t' hc2

theorem chain_trimHyphens (l : Str)
    (h : List.Chain' (fun x y => ¬(x = '-' ∧ y = '-')) l) :
    List.Chain' (fun x y => ¬(x = '-' ∧ y = '-')) (trimHyphens l) := by
  unfold trimHyphens
  exact chain_noadj_reverse _
    ((chain_noadj_reverse _ (h.suffix (List.dropWhile_suffix _))).suffix
      (List.dropWhile_suffix _))

theorem getLast?_trimHyphens (l : Str) :
    ∀ c, (trimHyphens l).getLast? = some c → c ≠ '-' := by
  intro c hc
  unfold trimHyphens at hc
  rw [List.getLast?_reverse] at hc
  exact head?_dropWhile_hyphen _ c hc

theorem head?_trimHyphens (l : Str) :
    ∀ c, (trimHyphens l).head? = some c → c ≠ '-' := by
  intro c hc
  unfold trimHyphens at hc
  rw [List.head?_reverse] at hc
  set Y := ((l.dropWhile (· = '-')).reverse.dropWhile (· = '-')) with hY
  obtain ⟨t, ht⟩ := List.dropWhile_suffix (l := (l.dropWhile (· = '-')).reverse)
    (· = '-')
  cases hYe : Y with
  | nil =>
    rw [hYe] at hc
    simp at hc
  | cons y ys =>
    have : Y.getLast? = (l.dropWhile (· = '-')).reverse.getLast? := by
      rw [← ht]
      exact (List.getLast?_append_of_ne_nil t (by rw [hYe]; simp)).symm
    rw [this, List.getLast?_reverse] at hc
    exact head?_dropWhile_hyphen _ c hc

theorem dropWhile_hyphen_eq_self (l : Str)
    (h : ∀ c, l.head? = some c → c ≠ '-') : l.dropWhile (· = '-') = l := by
  cases l with
  | nil => rfl
  | cons x rest =>
    rw [List.dropWhile_cons, if_neg (by simp [h x rfl])]

theorem trimHyphens_eq_self (l : Str)
    (hhead : ∀ c, l.head? = some c → c ≠ '-')
    (hlast : ∀ c, l.getLast? = some c → c ≠ '-') : trimHyphens l = l := by
  unfold trimHyphens
  rw [dropWhile_hyphen_eq_self l hhead]
  rw [dropWhile_hyphen_eq_self l.reverse
    (by intro c hc; rw [List.head?_reverse] at hc; exact hlast c hc)]
  exact List.reverse_reverse l

theorem goToLower_eq_self_of_slug (c : Char)
    (h : isLowerAlnum c = true ∨ c = '-') : goToLower c = c := by
  rcases h with h | rfl
  · unfold goToLower
    rw [if_neg ?_]
    simp only [Bool.and_eq_true, decide_eq_true_eq, not_and]
    intro hA hZ
    rcases Bool.or_eq_true _ _ |>.mp h with h' | h'
    · simp only [Bool.and_eq_true, decide_eq_true_eq] at h'
      exact absurd (le_trans h'.1 hZ) (by decide)
    · simp only [Bool.and_eq_true, decide_eq_true_eq] at h'
      exact absurd (le_trans hA h'.2) (by decide)
  · rfl

theorem map_goToLower_eq_self (l : Str)
    (h : ∀ c ∈ l, isLowerAlnum c = true ∨ c = '-') : l.map goToLower = l := by
  induction l with
  | nil => rfl
  | cons x rest ih =>
    rw [List.map_cons,
      goToLower_eq_self_of_slug x (h x (List.mem_cons_self _ _)),
      ih (fun c hc => h c (List.mem_cons_of_mem _ hc))]

theorem collapseRuns_eq_self (l : Str)
    (hchars : ∀ c ∈ l, isLowerAlnum c = true ∨ c = '-')
    (hchain : List.Chain' (fun x y => ¬(x = '-' ∧ y = '-')) l)
    (hlast : ∀ c, l.getLast? = some c → c ≠ '-') :
    collapseRuns false l = l ∧
      ((∀ c, l.head? = some c → c ≠ '-') → collapseRuns true l = l) := by
  induction l with
  | nil => exact ⟨rfl, fun _ => rfl⟩
  | cons x rest ih =>
    have hrest_chars : ∀ c ∈ rest, isLowerAlnum c = true ∨ c = '-' :=
      fun c hc => hchars c (List.mem_cons_of_mem _ hc)
    have hrest_chain := (List.chain'_cons'.mp hchain).2
    rcases hchars x (List.mem_cons_self _ _) with hx | hx
    · have hrest_last : ∀ c, rest.getLast? = some c → c ≠ '-' := by
        intro c hc
        cases hr : rest with
        | nil => rw [hr] at hc; simp at hc
        | cons y ys =>
          refine hlast c ?_
          rw [hr] at hc
          rw [hr, List.getLast?_cons_cons]
          exact hc
      obtain ⟨ih1, _⟩ := ih hrest_chars hrest_chain hrest_last
      constructor
      · simp only [collapseRuns, hx, if_true]
        rw [ih1]
      · intro _
        simp only [collapseRuns, hx, if_true]
        rw [ih1]
    · subst hx
      cases rest with
      | nil => exact absurd rfl (hlast '-' rfl)
      | cons y ys =>
        have hy : y ≠ '-' := by
          have hR := (List.chain'_cons'.mp hchain).1 y (by simp)
          intro e
          exact hR ⟨rfl, e⟩
        have hrest_last : ∀ c, (y :: ys).getLast? = some c → c ≠ '-' := by
          intro c hc
          refine hlast c ?_
          rw [List.getLast?_cons_cons]
          exact hc
        obtain ⟨_, ih2⟩ := ih hrest_chars hrest_chain hrest_last
        constructor
        · rw [collapseRuns_cons_start '-' (y :: ys) (by decide)]
          rw [ih2 (by intro c hc; simp only [List.head?_cons,
            Option.some.injEq] at hc; subst hc; exact hy)]
        · intro hhead
          exact absurd rfl (hhead '-' rfl)

/-- C8: for every title, `slugify` produces only lowercase alphanumerics
and hyphens, never two adjacent hyphens, never a leading or trailing
hyphen, and `slugify` is idempotent. -/
theorem slugify_spec (s : Str) :
    (∀ c ∈ slugify s, isLowerAlnum c = true ∨ c = '-') ∧
    List.Chain' (fun x y => ¬(x = '-' ∧ y = '-')) (slugify s) ∧
    (∀ c, (slugify s).head? = some c → c ≠ '-') ∧
    (∀ c, (slugify s).getLast? = some c → c ≠ '-') ∧
    slugify (slugify s) = slugify s := by
  have hchars : ∀ c ∈ slugify s, isLowerAlnum c = true ∨ c = '-' := by
    intro c hc
    exact collapseRuns_chars _ false c (mem_trimHyphens _ c hc)
  have hchain : List.Chain' (fun x y => ¬(x = '-' ∧ y = '-')) (slugify s) :=
    chain_trimHyphens _ (collapseRuns_chain _ false)
  have hhead : ∀ c, (slugify s).head? = some c → c ≠ '-' :=
    head?_trimHyphens _
  have hlast : ∀ c, (slugify s).getLast? = some c → c ≠ '-' :=
    getLast?_trimHyphens _
  refine ⟨hchars, hchain, hhead, hlast, ?_⟩
  show trimHyphens (collapseRuns false ((slugify s).map goToLower)) = slugify s
  rw [map_goToLower_eq_self _ hchars,
    (collapseRuns_eq_self _ hchars hchain hlast).1,
    trimHyphens_eq_self _ hhead hlast]

/-- Witness for C8 at a concrete input. -/
theorem slugify_spec_witness :
    slugify (slugify "Hello, World!".toList) = slugify "Hello, World!".toList :=
  (slugify_spec "Hello, World!".toList).2.2.2.2

/-! ## Validator -/

theorem checkRequired_eq_none (fm : List (String × Value)) (req : List String)
    (hreq : ∀ f ∈ req, (lookupFM fm f).isSome = true) :
    checkRequired fm req = none := by
  induction req with
  | nil => rfl
  | cons f req' ih =>
    simp only [checkRequired]
    rw [if_pos (hreq f (List.mem_cons_self _ _))]
    exact ih (fun g hg => hreq g (List.mem_cons_of_mem _ hg))

/-- C5: when some required field is absent from the mapping, the validator
fails with a "missing required field" error naming the first absent field
in the required list's order (`pre` are the earlier, present fields),
regardless of the strictness flag. -/
theorem validateFrontMatter_missing (fm : List (String × Value))
    (iter : List String) (strict : Bool) (pre post : List String) (f : String)
    (hpre : ∀ g ∈ pre, (lookupFM fm g).isSome = true)
    (hf : lookupFM fm f = none) :
    validateFrontMatter fm iter (pre ++ f :: post) strict =
      .error ("missing required field: " ++ f) := by
  have hcheck : checkRequired fm (pre ++ f :: post) = some f := by
    induction pre with
    | nil =>
      simp only [List.nil_append, checkRequired]
      rw [if_neg (by simp [hf])]
    | cons g pre' ih =>
      simp only [List.cons_append, checkRequired]
      rw [if_pos (hpre g (List.mem_cons_self _ _))]
      exact ih (fun g' hg' => hpre g' (List.mem_cons_of_mem _ hg'))
  unfold validateFrontMatter
  rw [hcheck]

/-- Witness for C5 at the spec's example: required = [title, slug], front
matter = `{slug}`; the validator names `title`. -/
theorem validateFrontMatter_missing_witness :
    validateFrontMatter [("slug", Value.str "s")] ["slug"] ["title", "slug"]
      true = .error "missing required field: title" :=
  validateFrontMatter_missing [("slug", Value.str "s")] ["slug"] true []
    ["slug"] "title" (by simp) (by decide)

/-- C4: with every required field present and at least one key outside the
required set, strict mode fails naming an offending key, while lenient
mode succeeds and returns one "unknown field" warning for every such key
(all of them, not just the first). -/
theorem validateFrontMatter_extras (fm : List (String × Value))
    (iter req : List String)
    (hreq : ∀ f ∈ req, (lookupFM fm f).isSome = true)
    (k₀ : String) (hk₀ : k₀ ∈ iter) (hk₀r : k₀ ∉ req) :
    (∃ k, k ∈ iter ∧ k ∉ req ∧
      validateFrontMatter fm iter req true =
        .error ("unknown field in strict mode: " ++ k)) ∧
    ∃ ws, validateFrontMatter fm iter req false = .ok ws ∧
      (∀ k, k ∈ iter → k ∉ req → ("unknown field: " ++ k) ∈ ws) ∧
      (∀ w ∈ ws, ∃ k, k ∈ iter ∧ k ∉ req ∧ w = "unknown field: " ++ k) := by
  have hcheck := checkRequired_eq_none fm req hreq
  constructor
  · have hsome : (iter.find? (fun k => !(req.contains k))).isSome = true := by
      rw [List.find?_isSome]
      exact ⟨k₀, hk₀, by simpa using hk₀r⟩
    obtain ⟨k, hk⟩ := Option.isSome_iff_exists.mp hsome
    refine ⟨k, List.mem_of_find?_eq_some hk, ?_, ?_⟩
    · have := List.find?_some hk
      simpa using this
    · unfold validateFrontMatter
      rw [hcheck, if_pos rfl, hk]
  · refine ⟨(iter.filter (fun k => !(req.contains k))).map
      (fun k => "unknown field: " ++ k), ?_, ?_, ?_⟩
    · unfold validateFrontMatter
      rw [hcheck, if_neg (by simp)]
    · intro k hk hkr
      exact List.mem_map_of_mem _ (List.mem_filter.mpr ⟨hk, by simpa using hkr⟩)
    · intro w hw
      obtain ⟨k, hk, rfl⟩ := List.mem_map.mp hw
      obtain ⟨hk1, hk2⟩ := List.mem_filter.mp hk
      exact ⟨k, hk1, by simpa using hk2, rfl⟩

/-- Witness for C4 at the spec's example: required = [title, slug, date],
front matter adds `extra`. -/
theorem validateFrontMatter_extras_witness :
    (∃ k, k ∈ ["title", "slug", "date", "extra"] ∧ k ∉ ["title", "slug", "date"] ∧
      validateFrontMatter
        [("title", Value.str "t"), ("slug", Value.str "s"),
         ("date", Value.str "d"), ("extra", Value.str "e")]
        ["title", "slug", "date", "extra"] ["title", "slug", "date"] true =
        .error ("unknown field in strict mode: " ++ k)) ∧
    ∃ ws, validateFrontMatter
        [("title", Value.str "t"), ("slug", Value.str "s"),
         ("date", Value.str "d"), ("extra", Value.str "e")]
        ["title", "slug", "date", "extra"] ["title", "slug", "date"] false =
        .ok ws ∧
      (∀ k, k ∈ ["title", "slug", "date", "extra"] →
        k ∉ ["title", "slug", "date"] → ("unknown field: " ++ k) ∈ ws) ∧
      (∀ w ∈ ws, ∃ k, k ∈ ["title", "slug", "date", "extra"] ∧
        k ∉ ["title", "slug", "date"] ∧ w = "unknown field: " ++ k) :=
  validateFrontMatter_extras
    [("title", Value.str "t"), ("slug", Value.str "s"),
     ("date", Value.str "d"), ("extra", Value.str "e")]
    ["title", "slug", "date", "extra"] ["title", "slug", "date"]
    (by decide) "extra" (by decide) (by decide)

/-! ## Path template resolution -/

/-- C1 counterexample: `"not-a-date"` is ten characters whose prefix
splits on `-` into exactly the three components "not", "a" and "date", so
`computePath` substitutes them instead of returning the pattern
unchanged. -/
theorem computePath_not_a_date_cex :
    computePath "posts/{yyyy}/{yyyy}-{MM}-{DD}-{slug}/{slug}.md" "not-a-date"
        "my-post" = "posts/not/not-a-date-my-post/my-post.md" ∧
    computePath "posts/{yyyy}/{yyyy}-{MM}-{DD}-{slug}/{slug}.md" "not-a-date"
        "my-post" ≠ "posts/{yyyy}/{yyyy}-{MM}-{DD}-{slug}/{slug}.md" := by
  constructor
  · decide
  · decide

/-- C1 amended: the pattern is returned unchanged exactly for date strings
whose first ten characters split on `-` into fewer than three components
(such as "notadate"); "not-a-date" itself is substituted. -/
theorem computePath_malformed_date (pattern slug date : String)
    (h : (splitOnChar '-' (if 10 ≤ date.toList.length then date.toList.take 10
      else date.toList)).length < 3) :
    computePath pattern date slug = pattern := by
  unfold computePath computePathL
  cases hp : splitOnChar '-' (if 10 ≤ date.toList.length
      then date.toList.take 10 else date.toList) with
  | nil =>
    cases pattern
    rfl
  | cons a t =>
    cases t with
    | nil =>
      cases pattern
      rfl
    | cons b t' =>
      cases t' with
      | nil =>
        cases pattern
        rfl
      | cons c t'' =>
        rw [hp] at h
        simp at h
        omega

/-- Witness for the amended C1: "notadate" has no hyphen, so the pattern
comes back unchanged. -/
theorem computePath_malformed_date_witness :
    computePath "posts/{yyyy}/{yyyy}-{MM}-{DD}-{slug}/{slug}.md" "notadate"
      "my-post" = "posts/{yyyy}/{yyyy}-{MM}-{DD}-{slug}/{slug}.md" :=
  computePath_malformed_date "posts/{yyyy}/{yyyy}-{MM}-{DD}-{slug}/{slug}.md"
    "my-post" "notadate" (by decide)

/-! ## Document formatter -/

theorem head?_dropWhile_eq (a : Char) (l : Str) :
    ∀ c, ((l.dropWhile (· = a)).head? = some c) → c ≠ a := by
  induction l with
  | nil =>
    intro c hc
    simp at hc
  | cons x rest ih =>
    intro c hc
    by_cases hx : x = a
    · rw [List.dropWhile_cons, if_pos (by simp [hx])] at hc
      exact ih c hc
    · rw [List.dropWhile_cons, if_neg (by simp [hx])] at hc
      simp only [List.head?_cons, Option.some.injEq] at hc
      subst hc
      exact hx

theorem trimRightNl_getLast (l : Str) : (trimRightNl l).getLast? ≠ some '\n' := by
  intro hc
  unfold trimRightNl at hc
  rw [List.getLast?_reverse] at hc
  exact head?_dropWhile_eq '\n' l.reverse '\n' hc rfl

/-- Inversion of a successful `formatContent` run: what the validator
returned, how the path was computed, and how the document was
assembled. -/
theorem formatContent_ok_inv (ext : Collab) (iter : List String)
    (input : FormatInput) (cfg0 : Config) (out : FormatOutput)
    (h : formatContent ext iter input cfg0 = .ok out) :
    validateFrontMatter (builtFM ext input cfg0) iter
        (effConfig ext input cfg0).required (input.strategy != "lenient") =
      .ok out.warnings ∧
    ∃ dateStr slug,
      lookupFM (builtFM ext input cfg0) "date" = some (.str dateStr) ∧
      lookupFM (builtFM ext input cfg0) "slug" = some (.str slug) ∧
      out.path = (if (effConfig ext input cfg0).rootPath = "" then
          computePath (effConfig ext input cfg0).pathPattern dateStr slug
        else joinPath (effConfig ext input cfg0).rootPath
          (computePath (effConfig ext input cfg0).pathPattern dateStr slug)) ∧
      out.markdown =
        "---\n" ++ ext.yamlMarshal (sortEntries (builtFM ext input cfg0)) ++
        "---\n\n" ++
        trimRightNlS (wrapTextS input.raw (effConfig ext input cfg0).wrapAt) ++
        "\n" := by
  simp only [formatContent] at h
  split at h
  all_goals try exact Except.noConfusion h
  next title heq_title =>
  split at h
  all_goals try exact Except.noConfusion h
  split at h
  all_goals try exact Except.noConfusion h
  next warnings heq_val =>
  split at h
  all_goals try exact Except.noConfusion h
  next dateStr slug heq_date heq_slug =>
  rw [Except.ok.injEq] at h
  subst h
  exact ⟨heq_val, dateStr, slug, heq_date, heq_slug, rfl, rfl⟩

/-- C6: the document text of every successful format call is exactly the
line `---`, the serialized front-matter block, the line `---`, one blank
line, then the wrapped body with its trailing newlines stripped, followed
by a single final newline (the stripped body itself never ends in a
newline). -/
theorem formatContent_document_shape (ext : Collab) (iter : List String)
    (input : FormatInput) (cfg0 : Config) (out : FormatOutput)
    (h : formatContent ext iter input cfg0 = .ok out) :
    out.markdown =
      "---\n" ++ ext.yamlMarshal (sortEntries (builtFM ext input cfg0)) ++
      "---\n\n" ++
      trimRightNlS (wrapTextS input.raw (effConfig ext input cfg0).wrapAt) ++
      "\n" ∧
    (trimRightNlS (wrapTextS input.raw (effConfig ext input cfg0).wrapAt)).toList.getLast?
      ≠ some '\n' := by
  obtain ⟨-, _, _, _, _, _, hmd⟩ := formatContent_ok_inv ext iter input cfg0 out h
  exact ⟨hmd, trimRightNl_getLast _⟩

/-- Witness for C6 at a concrete successful call. -/
theorem formatContent_document_shape_witness :
    formatContent collabFix iterFix2 inputFix2 cfgFix = .ok outFix2 ∧
    outFix2.markdown =
      "---\n" ++ collabFix.yamlMarshal (sortEntries (builtFM collabFix inputFix2 cfgFix)) ++
      "---\n\n" ++
      trimRightNlS (wrapTextS inputFix2.raw (effConfig collabFix inputFix2 cfgFix).wrapAt) ++
      "\n" :=
  ⟨by decide,
   (formatContent_document_shape collabFix iterFix2 inputFix2 cfgFix outFix2
     (by decide)).1⟩

/-- C7: when the inline configuration override fails to parse, the call
does not fail for that reason and proceeds with the pre-override
configuration unchanged: the effective configuration equals the passed-in
one and the whole call behaves exactly as if no override had been
supplied. -/
theorem formatContent_override_ignored (ext : Collab) (iter : List String)
    (input : FormatInput) (cfg0 : Config)
    (h : ext.tomlMerge input.config cfg0 = none) :
    effConfig ext input cfg0 = cfg0 ∧
    formatContent ext iter input cfg0 =
      formatContent ext iter
        { raw := input.raw, meta := input.meta, config := "",
          strategy := input.strategy } cfg0 := by
  have heff : effConfig ext input cfg0 = cfg0 := by
    unfold effConfig
    by_cases hc : input.config = ""
    · rw [if_pos hc]
    · rw [if_neg hc, h]
  have heff' : effConfig ext
      { raw := input.raw, meta := input.meta, config := "",
        strategy := input.strategy } cfg0 = cfg0 := by
    unfold effConfig
    rw [if_pos rfl]
  refine ⟨heff, ?_⟩
  simp only [formatContent, heff, heff']

/-- Witness for C7 at a concrete unparsable override. -/
theorem formatContent_override_ignored_witness :
    effConfig collabFix inputFix3 cfgFix = cfgFix ∧
    formatContent collabFix iterFix2 inputFix3 cfgFix =
      formatContent collabFix iterFix2
        { raw := inputFix3.raw, meta := inputFix3.meta, config := "",
          strategy := inputFix3.strategy } cfgFix :=
  formatContent_override_ignored collabFix iterFix2 inputFix3 cfgFix rfl

/-- Successful validations whose key iteration orders are permutations of
each other return permuted warning lists. -/
theorem validateFrontMatter_perm (fm : List (String × Value))
    (iter1 iter2 req : List String) (strict : Bool) (w1 w2 : List String)
    (hp : iter1.Perm iter2)
    (h1 : validateFrontMatter fm iter1 req strict = .ok w1)
    (h2 : validateFrontMatter fm iter2 req strict = .ok w2) :
    w1.Perm w2 := by
  unfold validateFrontMatter at h1 h2
  cases hcheck : checkRequired fm req with
  | some f =>
    rw [hcheck] at h1
    exact Except.noConfusion h1
  | none =>
    rw [hcheck] at h1 h2
    cases strict with
    | true =>
      rw [if_pos rfl] at h1 h2
      cases hf1 : iter1.find? (fun k => !(req.contains k)) with
      | some k =>
        rw [hf1] at h1
        exact Except.noConfusion h1
      | none =>
        rw [hf1] at h1
        cases hf2 : iter2.find? (fun k => !(req.contains k)) with
        | some k =>
          rw [hf2] at h2
          exact Except.noConfusion h2
        | none =>
          rw [hf2] at h2
          rw [Except.ok.injEq] at h1 h2
          rw [← h1, ← h2]
    | false =>
      rw [if_neg (by simp)] at h1 h2
      rw [Except.ok.injEq] at h1 h2
      rw [← h1, ← h2]
      exact (hp.filter _).map _

/-- C2 counterexample: an identical request (explicit date, lenient, two
unknown keys) formatted under two runs whose map iteration orders differ
(both are orders of the same key set) yields different `FormatOutput`s:
the warning sequences come out in different orders. -/
theorem formatContent_determinism_cex :
    iterA.Perm ((builtFM collabFix inputFix cfgFix).map Prod.fst) ∧
    iterB.Perm ((builtFM collabFix inputFix cfgFix).map Prod.fst) ∧
    lookupFM inputFix.meta "date" =
      some (.str "2025-01-02 10:00:00 +0000") ∧
    formatContent collabFix iterA inputFix cfgFix = .ok outFixA ∧
    formatContent collabFix iterB inputFix cfgFix = .ok outFixB ∧
    formatContent collabFix iterA inputFix cfgFix ≠
      formatContent collabFix iterB inputFix cfgFix := by
  refine ⟨by decide, by decide, by decide, by decide, by decide, by decide⟩

/-- C2 amended: with the date supplied explicitly, two successful runs of
the formatter on identical input and configuration yield byte-identical
path and document text; the warning lists are permutations of each other
(equal as multisets), but their order follows the run's map iteration
order and may differ between runs. -/
theorem formatContent_determinism (ext : Collab) (iter1 iter2 : List String)
    (input : FormatInput) (cfg0 : Config) (out1 out2 : FormatOutput)
    (hp1 : iter1.Perm ((builtFM ext input cfg0).map Prod.fst))
    (hp2 : iter2.Perm ((builtFM ext input cfg0).map Prod.fst))
    (d : String) (_hdate : lookupFM input.meta "date" = some (.str d))
    (h1 : formatContent ext iter1 input cfg0 = .ok out1)
    (h2 : formatContent ext iter2 input cfg0 = .ok out2) :
    out1.path = out2.path ∧ out1.markdown = out2.markdown ∧
      out1.warnings.Perm out2.warnings := by
  obtain ⟨hv1, d1, s1, hd1, hs1, hpath1, hmd1⟩ :=
    formatContent_ok_inv ext iter1 input cfg0 out1 h1
  obtain ⟨hv2, d2, s2, hd2, hs2, hpath2, hmd2⟩ :=
    formatContent_ok_inv ext iter2 input cfg0 out2 h2
  have hd : d1 = d2 := by
    have := hd1.symm.trans hd2
    simpa using this
  have hs : s1 = s2 := by
    have := hs1.symm.trans hs2
    simpa using this
  subst hd
  subst hs
  refine ⟨?_, ?_, ?_⟩
  · rw [hpath1, hpath2]
  · rw [hmd1, hmd2]
  · exact validateFrontMatter_perm _ iter1 iter2 _ _ _ _
      (hp1.trans hp2.symm) hv1 hv2

/-- Witness for the amended C2 at concrete runs with different iteration
orders. -/
theorem formatContent_determinism_witness :
    outFixA.path = outFixB.path ∧ outFixA.markdown = outFixB.markdown ∧
      outFixA.warnings.Perm outFixB.warnings :=
  formatContent_determinism collabFix iterA iterB inputFix cfgFix outFixA
    outFixB (by decide) (by decide) "2025-01-02 10:00:00 +0000" (by decide)
    (by decide) (by decide)

end Bckt
